import Mathlib

/-!
Shallow embedding of the OpenTimestamps client `Timestamp` proof engine
(`opentimestamps/timestamp.py`): multi-algorithm digesting, DAG consistency
verification, and the digest-stack (de)serialization protocol.  The
collaborator interfaces (`Dag`, `Op`, `Signature`, the hash provider and the
hex helpers), which the repository specifies only at their interface
boundary, are modelled from the specification and marked as such in their
doc comments.

Bytes are modelled as `Nat` values (meaningful when `< 256`), byte strings
as `List Nat`, Python `dict`s as insertion-ordered association lists, and
Python exceptions as an explicit error type threaded through `Except` /
`Option`.
-/

/-- A digest: an opaque byte sequence produced by a named hash algorithm. -/
abbrev Digest := List Nat

/-- Lexicographic byte order on byte strings, as Python compares `bytes`
(`sorted(self.digests.values())` relies on it). -/
def dle : List Nat → List Nat → Bool
  | [], _ => true
  | _ :: _, [] => false
  | a :: as, b :: bs => if a < b then true else if b < a then false else dle as bs

/-- `dle` as a relation, for use with `List.insertionSort`. -/
def dleR (a b : List Nat) : Prop := dle a b = true

instance : DecidableRel dleR := fun a b => inferInstanceAs (Decidable (dle a b = true))

/-- Python's `sorted` on a list of byte strings. -/
def sortDigests (l : List Digest) : List Digest := List.insertionSort dleR l

/-- One hex digit, lowercase, as produced by `binascii.hexlify`. -/
def hexChar (n : Nat) : Char := if n < 10 then Char.ofNat (48 + n) else Char.ofNat (87 + n)

/-- Decode one hex digit (digits and lowercase letters). -/
def hexVal (c : Char) : Option Nat :=
  if 48 ≤ c.toNat ∧ c.toNat ≤ 57 then some (c.toNat - 48)
  else if 97 ≤ c.toNat ∧ c.toNat ≤ 102 then some (c.toNat - 87)
  else none

/-- Modelled from the spec: `opentimestamps._internal.hexlify` (absent from
`src/`), hex-encoding a byte string, two lowercase hex digits per byte. -/
def hexlify (bs : List Nat) : List Char :=
  bs.foldr (fun b acc => hexChar (b / 16) :: hexChar (b % 16) :: acc) []

/-- Modelled from the spec: `opentimestamps._internal.unhexlify` (absent from
`src/`); decoding failure is reported (and surfaces as a malformed proof). -/
def unhexlify : List Char → Option (List Nat)
  | [] => some []
  | [_] => none
  | c1 :: c2 :: rest =>
    match hexVal c1, hexVal c2, unhexlify rest with
    | some h, some l, some bs => some ((16 * h + l) :: bs)
    | _, _, _ => none

/-- A byte string is valid when every entry is an actual byte value. -/
def ValidBytes (l : List Nat) : Prop := ∀ b ∈ l, b < 256

instance (l : List Nat) : Decidable (ValidBytes l) :=
  inferInstanceAs (Decidable (∀ b ∈ l, b < 256))

/-- Modelled from the spec: an `Op` (DAG node) is identified by its kind and
its ordered input digests; its output digest is a pure function of these.
The concrete hash-combination semantics of each kind are outside the spec's
scope, so the kind is an opaque tag here. -/
structure Op where
  kind : Nat
  inputs : List Digest
deriving DecidableEq

/-- Modelled from the spec: the operation's output digest, a pure function of
kind and inputs.  The model prefixes the kind byte to the concatenated
inputs, which is deterministic and preserves byte-validity. -/
def Op.digest (op : Op) : Digest := op.kind % 256 :: op.inputs.foldr (· ++ ·) []

/-- Length-prefixed encoding of one input, so that input lists encode
injectively. -/
def encodeInput (i : Digest) : List Nat := i.length :: i

/-- Length-prefixed encoding of an input list. -/
def encodeInputs (l : List Digest) : List Nat := l.foldr (fun i acc => encodeInput i ++ acc) []

/-- Modelled from the spec: the canonical, stable and total comparison key of
an operation (the spec leaves the exact key open; the model uses the full
operation content, which is total and injective). -/
def Op.sortKey (op : Op) : List Nat := op.kind :: op.inputs.length :: encodeInputs op.inputs

/-- Canonical order on operations, by comparison key. -/
def opLe (o1 o2 : Op) : Prop := dleR o1.sortKey o2.sortKey

instance : DecidableRel opLe := fun a b =>
  inferInstanceAs (Decidable (dle a.sortKey b.sortKey = true))

/-- The default `op_sorter=sorted` argument of `Timestamp.to_primitives`: the
canonical deterministic order over operations. -/
def op_sorter (ops : List Op) : List Op := List.insertionSort opLe ops

/-- Modelled from the spec: a notary `Signature` exposes its attested digest
plus notary-specific payload (collapsed to one opaque string here). -/
structure Sig where
  digest : Digest
  notary : String
deriving DecidableEq

/-- The errors of the engine.  In the source, `inconsistentDigest` and
`unanchoredSignature` are both `TimestampVerificationError`s distinguished by
a message naming the algorithm resp. the signature; `malformedProof` covers
the failures raised while deserializing primitives; `attributeErrorNoneRead`
is Python's untyped `AttributeError` from calling `read` on a `None`
`data_fd`; `keyError` is the `KeyError` from looking up an unknown algorithm
name in the hash provider.  `noDataSource` is the typed error the spec's
taxonomy describes; the embedded code never produces it. -/
inductive TsError where
  | inconsistentDigest (algo : String)
  | unanchoredSignature (sig : Sig)
  | malformedProof
  | attributeErrorNoneRead
  | keyError (algo : String)
  | noDataSource
deriving DecidableEq

/-- A serialized digest reference: a stack position, or raw hex bytes. -/
inductive PrimInput where
  | ref (i : Nat)
  | raw (h : List Char)
deriving DecidableEq

/-- A serialized operation. -/
structure PrimOp where
  kind : Nat
  inputs : List PrimInput
  digest : Option (List Char)
deriving DecidableEq

/-- A serialized signature. -/
structure PrimSig where
  digest : PrimInput
  notary : String
deriving DecidableEq

/-- The wire form: the three top-level fields of `to_primitives`.  Mapping
fields keep Python's `dict` insertion order. -/
structure Primitives where
  ops : List PrimOp
  signatures : List PrimSig
  digests : List (String × List Char)
deriving DecidableEq

/-- Python `dict` lookup on an insertion-ordered association list. -/
def lookupA {α β : Type} [DecidableEq α] : List (α × β) → α → Option β
  | [], _ => none
  | (k, v) :: rest, a => if k = a then some v else lookupA rest a

/-- Python `dict` assignment: replace in place if the key exists, else append. -/
def setA {α β : Type} [DecidableEq α] : List (α × β) → α → β → List (α × β)
  | [], a, v => [(a, v)]
  | (k, w) :: rest, a, v => if k = a then (k, v) :: rest else (k, w) :: setA rest a v

/-- `digest_stack[digest] = len(digest_stack.keys())`: the compression stack
is a `dict` from digest to absolute position.  Stacks built from the empty
dict have pairwise-distinct keys, so `m.length` is the key count. -/
def stackPush (m : List (Digest × Nat)) (d : Digest) : List (Digest × Nat) :=
  setA m d m.length

/-- The `Timestamp` aggregate.  `data_fd` is the optional readable data
source, a sequence of chunks as returned by successive `read` calls;
`digests` is the algorithm-name → digest map in insertion order; `dag` is
the proof DAG's operation list; `context` is the opaque context handle. -/
structure Timestamp where
  data_fd : Option (List (List Nat))
  digests : List (String × Digest)
  dag : List Op
  signatures : List Sig
  context : Option Nat
deriving DecidableEq

/-- Python `set` insertion: ignore an element that is already present. -/
def setInsert (l : List Sig) (s : Sig) : List Sig := if s ∈ l then l else l ++ [s]

/-- Python `set(signatures)`: deduplicate, keeping first occurrences. -/
def setOfList (l : List Sig) : List Sig := l.foldl setInsert []

/-- `Timestamp.__init__(data_fd, digests, ops, signatures, context)`. -/
def Timestamp.make (data_fd : Option (List (List Nat))) (digests : List (String × Digest))
    (ops : List Op) (signatures : List Sig) (context : Option Nat) : Timestamp :=
  { data_fd := data_fd, digests := digests, dag := ops,
    signatures := setOfList signatures, context := context }

/-- The algorithm names the hash provider knows
(`opentimestamps.crypto.hash_functions_by_name`, absent from `src/`). -/
def known_algorithms : List String := ["md5", "sha1", "sha224", "sha256", "sha384", "sha512"]

/-- Modelled from the spec: the deterministic digest of `data` under the
named algorithm.  Only determinism and sensitivity to the data matter to the
claims; the model tags the data with the algorithm name's length. -/
def hashDigest (name : String) (data : List Nat) : Digest := name.length :: data

/-- An incremental hasher: `incremental(b'')` starts with an empty
accumulator; `update` appends bytes; `digest()` hashes the accumulator. -/
structure Hasher where
  name : String
  acc : List Nat
deriving DecidableEq

/-- `hasher.digest()`. -/
def Hasher.digest (h : Hasher) : Digest := hashDigest h.name h.acc

/-- The hasher-building loop of `add_algorithms`: one incremental hasher per
algorithm in iteration order; an unknown name raises `KeyError` at once. -/
def mkHashers : List String → Except TsError (List Hasher)
  | [] => .ok []
  | a :: rest =>
    if a ∈ known_algorithms then
      match mkHashers rest with
      | .ok hs => .ok ({ name := a, acc := [] } :: hs)
      | .error e => .error e
    else .error (.keyError a)

/-- The streaming read loop of `add_algorithms`: read chunk by chunk until a
read returns no bytes, feeding every hasher each chunk; returns the fed
hashers and the unread remainder of the source. -/
def readChunks (hs : List Hasher) : List (List Nat) → List Hasher × List (List Nat)
  | [] => (hs, [])
  | c :: cs =>
    if c = [] then (hs, cs)
    else readChunks (hs.map fun h => { h with acc := h.acc ++ c }) cs

/-- The bytes the read loop delivers (concatenation up to the first empty
read). -/
def streamData : List (List Nat) → List Nat
  | [] => []
  | c :: cs => if c = [] then [] else c ++ streamData cs

/-- The chunks left unread after the read loop. -/
def streamRest : List (List Nat) → List (List Nat)
  | [] => []
  | c :: cs => if c = [] then cs else streamRest cs

/-- The recording loop of `add_algorithms`: for each hasher, record its
digest if the algorithm has none, otherwise require the recorded digest to
equal the recomputed one, raising on the first mismatch and leaving the map
as mutated so far. -/
def recordDigests (digests : List (String × Digest)) :
    List Hasher → Option TsError × List (String × Digest)
  | [] => (none, digests)
  | h :: hs =>
    match lookupA digests h.name with
    | none => recordDigests (digests ++ [(h.name, h.digest)]) hs
    | some d =>
      if d = h.digest then recordDigests digests hs
      else (some (.inconsistentDigest h.name), digests)

/-- `order` is a valid iteration order of
`set(self.digests.keys()).union(algorithms)`: no repetitions, and exactly
the union's members.  CPython leaves this order unspecified, so theorems
quantify over every valid order. -/
def UnionOrder (t : Timestamp) (algorithms order : List String) : Prop :=
  order.Nodup ∧ (∀ a ∈ order, a ∈ t.digests.map Prod.fst ∨ a ∈ algorithms) ∧
    (∀ a ∈ t.digests.map Prod.fst, a ∈ order) ∧ (∀ a ∈ algorithms, a ∈ order)

instance (t : Timestamp) (algorithms order : List String) :
    Decidable (UnionOrder t algorithms order) := by
  unfold UnionOrder; infer_instance

/-- `Timestamp.add_algorithms(*algorithms)`.  The call returns the raised
error (if any) together with the post-call object state, mirroring that a
Python exception leaves the object as mutated so far.  `order` is the
iteration order of the algorithm-set union (see `UnionOrder`). -/
def Timestamp.add_algorithms (t : Timestamp) (algorithms order : List String) :
    Option TsError × Timestamp :=
  match mkHashers order with
  | .error e => (some e, t)
  | .ok hashers =>
    match t.data_fd with
    | none => (some .attributeErrorNoneRead, t)
    | some chunks =>
      let fed := readChunks hashers chunks
      let res := recordDigests t.digests fed.1
      (res.1, { t with data_fd := some fed.2, digests := res.2 })

/-- Add one operation's output to the set when all its inputs are already
members. -/
def closureAdd (acc : List Digest) (op : Op) : List Digest :=
  if (∀ i ∈ op.inputs, i ∈ acc) ∧ op.digest ∉ acc then acc ++ [op.digest] else acc

/-- One pass over the operations: append the output of every operation whose
inputs are all already in the set. -/
def closureStep (ops : List Op) (acc : List Digest) : List Digest :=
  ops.foldl closureAdd acc

/-- Iterated closure passes. -/
def closureIter (ops : List Op) : Nat → List Digest → List Digest
  | 0, acc => acc
  | n + 1, acc => closureIter ops n (closureStep ops acc)

/-- Modelled from the spec: `Dag.children(seeds)` (absent from `src/`) — the
descendant closure of the seed digests over the proof DAG: the seeds
themselves plus, transitively, every operation's output whose inputs are
already in the set.  One full pass per operation reaches the fixpoint. -/
def Dag.children (ops : List Op) (seeds : List Digest) : List Digest :=
  closureIter ops ops.length seeds

/-- The descendant closure of a timestamp's source digests over its DAG. -/
def closureDigests (t : Timestamp) : List Digest :=
  Dag.children t.dag (t.digests.map Prod.snd)

/-- `Timestamp.verify_consistency`: every signature's digest must be
connected to the source digests; the first uncovered signature is reported. -/
def Timestamp.verify_consistency (t : Timestamp) : Option TsError :=
  let digest_children := Dag.children t.dag (t.digests.map Prod.snd)
  let closure := digest_children ++ t.digests.map Prod.snd
  match t.signatures.find? (fun s => decide (s.digest ∉ closure)) with
  | some s => some (.unanchoredSignature s)
  | none => none

/-- Serialize one digest reference: a stack index when the digest is on the
compression stack, raw hex otherwise. -/
def primInputOf (stack : List (Digest × Nat)) (d : Digest) : PrimInput :=
  match lookupA stack d with
  | some i => .ref i
  | none => .raw (hexlify d)

/-- Modelled from the spec: `Op.to_primitives(digest_stack, include_digest)`
(absent from `src/`): inputs become stack references when possible, and the
output digest is included only on request (it is recomputable). -/
def Op.to_primitives (op : Op) (stack : List (Digest × Nat)) (includeDigest : Bool) : PrimOp :=
  { kind := op.kind
    inputs := op.inputs.map (primInputOf stack)
    digest := if includeDigest then some (hexlify op.digest) else none }

/-- Modelled from the spec: `Signature.to_primitives(digest_stack)` (absent
from `src/`). -/
def Sig.to_primitives (s : Sig) (stack : List (Digest × Nat)) : PrimSig :=
  { digest := primInputOf stack s.digest, notary := s.notary }

/-- Resolve one serialized digest reference against the deserialization
stack; an out-of-range index or undecodable hex is a malformed proof. -/
def resolveInput (stack : List Digest) : PrimInput → Except TsError Digest
  | .ref i =>
    match stack.get? i with
    | some d => .ok d
    | none => .error .malformedProof
  | .raw h =>
    match unhexlify h with
    | some d => .ok d
    | none => .error .malformedProof

/-- Resolve a list of serialized references, failing on the first bad one. -/
def resolveInputs (stack : List Digest) : List PrimInput → Except TsError (List Digest)
  | [] => .ok []
  | i :: rest =>
    match resolveInput stack i with
    | .error e => .error e
    | .ok d =>
      match resolveInputs stack rest with
      | .error e => .error e
      | .ok ds => .ok (d :: ds)

/-- Modelled from the spec: `Op.from_primitives(prim, digest_stack)` (absent
from `src/`): resolve the input references; the output digest is recomputed
from the reconstructed operation. -/
def Op.from_primitives (p : PrimOp) (stack : List Digest) : Except TsError Op :=
  match resolveInputs stack p.inputs with
  | .error e => .error e
  | .ok inputs => .ok { kind := p.kind, inputs := inputs }

/-- Modelled from the spec: `Signature.from_primitives(prim, digest_stack)`
(absent from `src/`). -/
def Sig.from_primitives (p : PrimSig) (stack : List Digest) : Except TsError Sig :=
  match resolveInput stack p.digest with
  | .error e => .error e
  | .ok d => .ok { digest := d, notary := p.notary }

/-- The serialization loop over canonical-order operations: serialize each
operation against the current stack, then (when compressing) push its output
digest. -/
def opsToPrims (compress includeDigest : Bool) :
    List Op → List (Digest × Nat) → List PrimOp × List (Digest × Nat)
  | [], stack => ([], stack)
  | op :: rest, stack =>
    let p := op.to_primitives stack includeDigest
    let stack2 := if compress then stackPush stack op.digest else stack
    let pr := opsToPrims compress includeDigest rest stack2
    (p :: pr.1, pr.2)

/-- The compression stack after the sorted source digests are pushed: when
compressing, each sorted digest value is assigned `len(digest_stack.keys())`
in turn; when not compressing, the stack stays empty. -/
def serStack0 (t : Timestamp) (compress : Bool) : List (Digest × Nat) :=
  if compress then (sortDigests (t.digests.map Prod.snd)).foldl stackPush [] else []

/-- `Timestamp.to_primitives(include_op_digests, compress, op_sorter=sorted)`
with the default canonical operation order. -/
def Timestamp.to_primitives (t : Timestamp) (include_op_digests compress : Bool) : Primitives :=
  let folded := opsToPrims compress include_op_digests (op_sorter t.dag) (serStack0 t compress)
  { ops := folded.1
    signatures := t.signatures.map fun s => s.to_primitives folded.2
    digests := t.digests.map fun p => (p.1, hexlify p.2) }

/-- Decode the serialized digest mapping, failing on undecodable hex. -/
def decodeDigests : List (String × List Char) → Except TsError (List (String × Digest))
  | [] => .ok []
  | (a, h) :: rest =>
    match unhexlify h with
    | some d =>
      match decodeDigests rest with
      | .error e => .error e
      | .ok r => .ok ((a, d) :: r)
    | none => .error .malformedProof

/-- The deserialization loop over serialized operations: rebuild each against
the current stack, then push its output digest (the stack is a plain list on
this side). -/
def opsFromPrims : List PrimOp → List Digest → Except TsError (List Op × List Digest)
  | [], stack => .ok ([], stack)
  | po :: rest, stack =>
    match Op.from_primitives po stack with
    | .error e => .error e
    | .ok op =>
      match opsFromPrims rest (stack ++ [op.digest]) with
      | .error e => .error e
      | .ok pr => .ok (op :: pr.1, pr.2)

/-- The deserialization loop over serialized signatures. -/
def sigsFromPrims (stack : List Digest) : List PrimSig → Except TsError (List Sig)
  | [] => .ok []
  | ps :: rest =>
    match Sig.from_primitives ps stack with
    | .error e => .error e
    | .ok s =>
      match sigsFromPrims stack rest with
      | .error e => .error e
      | .ok ss => .ok (s :: ss)

/-- `Timestamp.from_primitives(primitives, data_fd)`: decode the digest
mapping, rebuild the stack in sorted order exactly as serialization did,
then rebuild operations and signatures. -/
def Timestamp.from_primitives (p : Primitives) (data_fd : Option (List (List Nat))) :
    Except TsError Timestamp :=
  match decodeDigests p.digests with
  | .error e => .error e
  | .ok digests =>
    match opsFromPrims p.ops (sortDigests (digests.map Prod.snd)) with
    | .error e => .error e
    | .ok pr =>
      match sigsFromPrims pr.2 p.signatures with
      | .error e => .error e
      | .ok sigs => .ok (Timestamp.make data_fd digests pr.1 sigs none)

/-- The digests pushed onto the compression stack, in push order: sorted
source digests, then the canonical-order operation outputs. -/
def stackDigests (t : Timestamp) : List Digest :=
  sortDigests (t.digests.map Prod.snd) ++ (op_sorter t.dag).map Op.digest

/-- The ideal stack dictionary assigning positions `n, n+1, ...` to a digest
list; the compression dict coincides with it while pushed digests are
fresh. -/
def mkStack : Nat → List Digest → List (Digest × Nat)
  | _, [] => []
  | n, d :: ds => (d, n) :: mkStack (n + 1) ds

/-- The serialization-side stack dictionary corresponding to the
deserialization-side stack list `l`: the position dictionary when
compressing, the empty dictionary otherwise. -/
def stkOf (compress : Bool) (l : List Digest) : List (Digest × Nat) :=
  if compress then mkStack 0 l else []

/-- A timestamp with no data source (concrete instance for the digesting
error claims). -/
def tNoFd : Timestamp :=
  { data_fd := none, digests := [], dag := [], signatures := [], context := none }

/-- A timestamp with one recorded — stale — sha256 digest and a two-byte
data source (concrete instance for the non-atomicity claim). -/
def tStale : Timestamp :=
  { data_fd := some [[1, 2]], digests := [("sha256", [9, 9])], dag := [],
    signatures := [], context := none }

/-- A timestamp with an empty digest map and a one-chunk data source
(concrete instance for the stream-consumption claim). -/
def tEmpty : Timestamp :=
  { data_fd := some [[3]], digests := [], dag := [], signatures := [], context := none }

/-- The spec's reachability example: source digest D0 = `[0]`, operations
op1 : D0 → D1 and op2 : D1 → D2, and a signature attesting D2 (concrete
instance for the consistency-verification claim). -/
def tChain : Timestamp :=
  { data_fd := none, digests := [("sha256", [0])],
    dag := [{ kind := 1, inputs := [[0]] }, { kind := 2, inputs := [[1, 0]] }],
    signatures := [{ digest := [2, 1, 0], notary := "cal" }], context := none }

/-- The state of `tEmpty` after one successful sha256 digesting call
(concrete instance for the idempotence claim). -/
def tEmptyRun : Timestamp :=
  { data_fd := some [], digests := [("sha256", [6, 3])], dag := [], signatures := [],
    context := none }

instance {ε α : Type} [DecidableEq ε] [DecidableEq α] : DecidableEq (Except ε α) := fun x y =>
  match x, y with
  | .error e1, .error e2 =>
    if h : e1 = e2 then .isTrue (by rw [h])
    else .isFalse (fun hc => h (by injection hc))
  | .error _, .ok _ => .isFalse (fun hc => Except.noConfusion hc)
  | .ok _, .error _ => .isFalse (fun hc => Except.noConfusion hc)
  | .ok a1, .ok a2 =>
    if h : a1 = a2 then .isTrue (by rw [h])
    else .isFalse (fun hc => h (by injection hc))

/-- A validly constructed timestamp with one source digest, one operation
and one signature (concrete instance for the round-trip claim). -/
def tRound : Timestamp :=
  { data_fd := none, digests := [("sha256", [0, 255])],
    dag := [{ kind := 7, inputs := [[0, 255]] }],
    signatures := [{ digest := [7, 0, 255], notary := "cal" }], context := none }

/-- A timestamp whose source-digest values collide across algorithms ("a"
and "b" both map to `[0]`): serialization's stack dict then assigns `[1]`
the same position (1) as the overwritten `[0]`, while deserialization
rebuilds the stack as a plain list in which position 1 holds `[0]`, so the
signature's stack reference resolves to the wrong digest. -/
def tCollide : Timestamp :=
  { data_fd := none, digests := [("a", [0]), ("b", [0]), ("c", [1])],
    dag := [], signatures := [{ digest := [1], notary := "cal" }], context := none }

/-- Two timestamps with the same logical digest map inserted in different
orders (concrete instances for the determinism claim). -/
def tOrder1 : Timestamp :=
  { data_fd := none, digests := [("a", [0]), ("b", [1])], dag := [], signatures := [],
    context := none }

/-- See `tOrder1`. -/
def tOrder2 : Timestamp :=
  { data_fd := none, digests := [("b", [1]), ("a", [0])], dag := [], signatures := [],
    context := none }

/-- Malformed proof: an operation references stack index 5 while only the
three source digests are on the stack. -/
def pBadIndex : Primitives :=
  { ops := [{ kind := 0, inputs := [.ref 5], digest := none }], signatures := [],
    digests := [("a", ['0', '0']), ("b", ['0', '1']), ("c", ['0', '2'])] }

/-- Malformed proof: a source digest whose hex encoding does not decode. -/
def pBadHex : Primitives :=
  { ops := [], signatures := [], digests := [("a", ['z', 'z'])] }

/-- Malformed proof: the first operation forward-references stack position 1,
which only its own output push would create. -/
def pFwdRef : Primitives :=
  { ops := [{ kind := 0, inputs := [.ref 1], digest := none }], signatures := [],
    digests := [("a", ['0', '0'])] }

theorem dle_total : ∀ a b, dle a b = true ∨ dle b a = true := by
  intro a
  induction a with
  | nil => intro b; left; rfl
  | cons x xs ih =>
    intro b
    cases b with
    | nil => right; rfl
    | cons y ys =>
      by_cases h1 : x < y
      · left; simp [dle, h1]
      · by_cases h2 : y < x
        · right; simp [dle, h2]
        · rcases ih ys with h | h
          · left; simp [dle, h1, h2, h]
          · right; simp [dle, h1, h2, h]

theorem dle_trans : ∀ a b c, dle a b = true → dle b c = true → dle a c = true := by
  intro a
  induction a with
  | nil => intro b c _ _; rfl
  | cons x xs ih =>
    intro b c hab hbc
    cases b with
    | nil => simp [dle] at hab
    | cons y ys =>
      cases c with
      | nil => simp [dle] at hbc
      | cons z zs =>
        simp only [dle] at hab hbc ⊢
        split_ifs at hab hbc ⊢ <;>
          first
          | rfl
          | omega
          | exact ih ys zs hab hbc

theorem dle_antisymm : ∀ a b, dle a b = true → dle b a = true → a = b := by
  intro a
  induction a with
  | nil =>
    intro b _ hba
    cases b with
    | nil => rfl
    | cons y ys => simp [dle] at hba
  | cons x xs ih =>
    intro b hab hba
    cases b with
    | nil => simp [dle] at hab
    | cons y ys =>
      simp only [dle] at hab hba
      by_cases h1 : x < y
      · simp [show ¬ y < x by omega, h1] at hba
      · by_cases h2 : y < x
        · simp [h1, h2] at hab
        · simp only [if_neg h1, if_neg h2] at hab hba
          have hxy : x = y := by omega
          rw [hxy, ih ys hab hba]

instance : IsTotal (List Nat) dleR := ⟨dle_total⟩
instance : IsTrans (List Nat) dleR := ⟨fun a b c => dle_trans a b c⟩
instance : IsAntisymm (List Nat) dleR := ⟨dle_antisymm⟩

theorem hexVal_hexChar : ∀ n < 16, hexVal (hexChar n) = some n := by decide

theorem unhexlify_hexlify (bs : List Nat) (h : ValidBytes bs) :
    unhexlify (hexlify bs) = some bs := by
  induction bs with
  | nil => rfl
  | cons b rest ih =>
    have hb : b < 256 := h b (by simp)
    have hrest : ValidBytes rest := fun x hx => h x (by simp [hx])
    have h1 : hexVal (hexChar (b / 16)) = some (b / 16) := hexVal_hexChar _ (by omega)
    have h2 : hexVal (hexChar (b % 16)) = some (b % 16) := hexVal_hexChar _ (by omega)
    have hdm : 16 * (b / 16) + b % 16 = b := by omega
    simp only [hexlify, List.foldr] at *
    simp only [unhexlify, h1, h2, ih hrest, hdm]

theorem mkHashers_known (order : List String) (h : ∀ a ∈ order, a ∈ known_algorithms) :
    mkHashers order = .ok (order.map fun a => { name := a, acc := [] }) := by
  induction order with
  | nil => rfl
  | cons a rest ih =>
    have ha : a ∈ known_algorithms := h a (by simp)
    have hrest := ih (fun x hx => h x (by simp [hx]))
    simp only [mkHashers, if_pos ha, hrest, List.map]

theorem readChunks_eq : ∀ (cs : List (List Nat)) (hs : List Hasher),
    readChunks hs cs =
      (hs.map fun h => { h with acc := h.acc ++ streamData cs }, streamRest cs) := by
  intro cs
  induction cs with
  | nil =>
    intro hs
    simp only [readChunks, streamData, streamRest, List.append_nil]
    rw [show (fun (h : Hasher) => { h with acc := h.acc }) = id from funext fun h => rfl]
    simp
  | cons c cs ih =>
    intro hs
    by_cases hc : c = []
    · simp only [readChunks, streamData, streamRest, if_pos hc, List.append_nil]
      rw [show (fun (h : Hasher) => { h with acc := h.acc }) = id from funext fun h => rfl]
      simp
    · simp only [readChunks, streamData, streamRest, if_neg hc, ih, List.map_map]
      refine congrArg (fun l => (l, streamRest cs)) (List.map_congr_left fun h _ => ?_)
      simp [Function.comp, List.append_assoc]

theorem add_algorithms_eq (t : Timestamp) (algorithms order : List String)
    (chunks : List (List Nat)) (hfd : t.data_fd = some chunks)
    (hknown : ∀ a ∈ order, a ∈ known_algorithms) :
    t.add_algorithms algorithms order =
      ((recordDigests t.digests (order.map fun a => ⟨a, streamData chunks⟩)).1,
       { t with data_fd := some (streamRest chunks),
                digests :=
                  (recordDigests t.digests
                    (order.map fun a => ⟨a, streamData chunks⟩)).2 }) := by
  unfold Timestamp.add_algorithms
  rw [mkHashers_known order hknown, hfd]
  simp only [readChunks_eq, List.map_map]
  rfl

theorem lookupA_append_some {α β : Type} [DecidableEq α] :
    ∀ (l : List (α × β)) (l2 : List (α × β)) (a : α) (v : β),
      lookupA l a = some v → lookupA (l ++ l2) a = some v := by
  intro l
  induction l with
  | nil => intro l2 a v h; simp [lookupA] at h
  | cons p rest ih =>
    intro l2 a v h
    obtain ⟨k, w⟩ := p
    by_cases hk : k = a
    · simp only [lookupA, if_pos hk] at h
      simp only [List.cons_append, lookupA, if_pos hk, h]
    · simp only [lookupA, if_neg hk] at h
      simp only [List.cons_append, lookupA, if_neg hk]
      exact ih l2 a v h

theorem lookupA_append_none {α β : Type} [DecidableEq α] :
    ∀ (l : List (α × β)) (l2 : List (α × β)) (a : α),
      lookupA l a = none → lookupA (l ++ l2) a = lookupA l2 a := by
  intro l
  induction l with
  | nil => intro l2 a _; rfl
  | cons p rest ih =>
    intro l2 a h
    obtain ⟨k, w⟩ := p
    by_cases hk : k = a
    · simp [lookupA, if_pos hk] at h
    · simp only [lookupA, if_neg hk] at h
      simp only [List.cons_append, lookupA, if_neg hk]
      exact ih l2 a h

theorem recordDigests_mono :
    ∀ (hs : List Hasher) (digests : List (String × Digest)) (a : String) (d : Digest),
      lookupA digests a = some d → lookupA (recordDigests digests hs).2 a = some d := by
  intro hs
  induction hs with
  | nil => intro digests a d h; exact h
  | cons hsr rest ih =>
    intro digests a d hl
    simp only [recordDigests]
    cases hc : lookupA digests hsr.name with
    | none => exact ih _ a d (lookupA_append_some _ _ a d hl)
    | some dd =>
      by_cases he : dd = hsr.digest
      · simp only [if_pos he]
        exact ih _ a d hl
      · simp only [if_neg he]
        exact hl

theorem recordDigests_none_lookup :
    ∀ (hs : List Hasher) (digests : List (String × Digest)),
      (recordDigests digests hs).1 = none →
      ∀ hsr ∈ hs, lookupA (recordDigests digests hs).2 hsr.name = some hsr.digest := by
  intro hs
  induction hs with
  | nil => intro digests _ hsr hmem; simp at hmem
  | cons h0 rest ih =>
    intro digests hnone hsr hmem
    cases hc : lookupA digests h0.name with
    | none =>
      simp only [recordDigests, hc] at hnone ⊢
      rcases List.mem_cons.mp hmem with he | hm
      · subst he
        refine recordDigests_mono rest _ _ _ ?_
        rw [lookupA_append_none digests _ _ hc]
        simp [lookupA]
      · exact ih _ hnone hsr hm
    | some dd =>
      by_cases he : dd = h0.digest
      · simp only [recordDigests, hc, if_pos he] at hnone ⊢
        rcases List.mem_cons.mp hmem with heq | hm
        · subst heq
          exact recordDigests_mono rest _ _ _ (he ▸ hc)
        · exact ih _ hnone hsr hm
      · simp [recordDigests, hc, if_neg he] at hnone

theorem recordDigests_allmatch :
    ∀ (hs : List Hasher) (digests : List (String × Digest)),
      (∀ hsr ∈ hs, lookupA digests hsr.name = some hsr.digest) →
      recordDigests digests hs = (none, digests) := by
  intro hs
  induction hs with
  | nil => intro digests _; rfl
  | cons h0 rest ih =>
    intro digests hall
    have h1 : lookupA digests h0.name = some h0.digest := hall h0 (by simp)
    simp only [recordDigests, h1, if_pos rfl]
    exact ih digests (fun x hx => hall x (by simp [hx]))

theorem recordDigests_keys :
    ∀ (hs : List Hasher) (digests : List (String × Digest)) (a : String),
      a ∈ (recordDigests digests hs).2.map Prod.fst →
      a ∈ digests.map Prod.fst ∨ a ∈ hs.map Hasher.name := by
  intro hs
  induction hs with
  | nil => intro digests a h; exact Or.inl h
  | cons h0 rest ih =>
    intro digests a h
    cases hc : lookupA digests h0.name with
    | none =>
      simp only [recordDigests, hc] at h
      rcases ih _ a h with hin | hin
      · simp only [List.map_append, List.mem_append] at hin
        rcases hin with hin | hin
        · exact Or.inl hin
        · simp only [List.map, List.mem_singleton] at hin
          exact Or.inr (by simp [hin])
      · exact Or.inr (by simp [hin])
    | some dd =>
      by_cases he : dd = h0.digest
      · simp only [recordDigests, hc, if_pos he] at h
        rcases ih _ a h with hin | hin
        · exact Or.inl hin
        · exact Or.inr (by simp [hin])
      · simp only [recordDigests, hc, if_neg he] at h
        exact Or.inl h

theorem streamRest_no_empty :
    ∀ (chunks : List (List Nat)), [] ∉ chunks → streamRest chunks = [] := by
  intro chunks
  induction chunks with
  | nil => intro _; rfl
  | cons c cs ih =>
    intro h
    have hc : c ≠ [] := fun e => h (by simp [e])
    simp only [streamRest, if_neg hc]
    exact ih (fun e => h (by simp [e]))

/-- C8: `add_algorithms` has no observable effect on the timestamp besides
the source-digest map and the data source's read position: the proof DAG,
the signature set and the context are unchanged by the call, on every input
and on every outcome. -/
theorem add_algorithms_frame (t : Timestamp) (algorithms order : List String) :
    ((t.add_algorithms algorithms order).2).dag = t.dag ∧
    ((t.add_algorithms algorithms order).2).signatures = t.signatures ∧
    ((t.add_algorithms algorithms order).2).context = t.context := by
  unfold Timestamp.add_algorithms
  cases hmk : mkHashers order with
  | error e => exact ⟨rfl, rfl, rfl⟩
  | ok hashers =>
    cases hfd : t.data_fd with
    | none => exact ⟨rfl, rfl, rfl⟩
    | some chunks => exact ⟨rfl, rfl, rfl⟩

/-- C10: `add_algorithms` is not atomic on failure: with a stale stored
sha256 digest and a union iteration order that reaches the fresh sha1
hasher first, the call raises the digest-mismatch error for sha256 yet the
fresh sha1 digest remains recorded, so the map is observably changed. -/
theorem add_algorithms_not_atomic :
    (tStale.add_algorithms ["sha1"] ["sha1", "sha256"]).1
        = some (.inconsistentDigest "sha256") ∧
    (tStale.add_algorithms ["sha1"] ["sha1", "sha256"]).2.digests ≠ tStale.digests ∧
    lookupA (tStale.add_algorithms ["sha1"] ["sha1", "sha256"]).2.digests "sha1"
        = some (hashDigest "sha1" [1, 2]) ∧
    UnionOrder tStale ["sha1"] ["sha1", "sha256"] := by decide

/-- C6 (amended): when the timestamp has no data source, `add_algorithms`
fails — but with the untyped attribute error from calling `read` on `None`,
not with a typed NoDataSource error; the object is left unchanged. -/
theorem add_algorithms_no_fd_raises (t : Timestamp) (algorithms order : List String)
    (hfd : t.data_fd = none) (hknown : ∀ a ∈ order, a ∈ known_algorithms) :
    t.add_algorithms algorithms order = (some .attributeErrorNoneRead, t) := by
  unfold Timestamp.add_algorithms
  rw [mkHashers_known order hknown, hfd]

theorem add_algorithms_no_fd_raises_witness :
    tNoFd.add_algorithms ["sha256"] ["sha256"] = (some .attributeErrorNoneRead, tNoFd) :=
  add_algorithms_no_fd_raises tNoFd ["sha256"] ["sha256"] rfl (by decide)

/-- C6 counterexample: with no data source and new digesting required, the
call does fail, but not with the typed NoDataSource error the claim names —
the model's error is the untyped attribute error, and no code path produces
`TsError.noDataSource`. -/
theorem add_algorithms_no_fd_counterexample :
    (tNoFd.add_algorithms ["sha256"] ["sha256"]).1 ≠ none ∧
    (tNoFd.add_algorithms ["sha256"] ["sha256"]).1 ≠ some .noDataSource := by decide

/-- C9: with no requested algorithms and an empty digest map,
`add_algorithms` still reads the data source to exhaustion even though no
hashers exist, raises nothing, and leaves the digest map unchanged. -/
theorem add_algorithms_empty_consumes (t : Timestamp) (chunks : List (List Nat))
    (hfd : t.data_fd = some chunks) (hdig : t.digests = []) (hne : [] ∉ chunks) :
    t.add_algorithms [] [] = (none, { t with data_fd := some [] }) := by
  rw [add_algorithms_eq t [] [] chunks hfd (by simp)]
  simp only [List.map_nil, recordDigests, streamRest_no_empty chunks hne]

theorem add_algorithms_empty_consumes_witness :
    tEmpty.add_algorithms [] [] = (none, { tEmpty with data_fd := some [] }) :=
  add_algorithms_empty_consumes tEmpty [[3]] rfl rfl (by decide)

theorem lookupA_append_one {α β : Type} [DecidableEq α] :
    ∀ (l : List (α × β)) (k : α) (v : β) (a : α), k ≠ a →
      lookupA (l ++ [(k, v)]) a = lookupA l a := by
  intro l k v a hk
  induction l with
  | nil => simp [lookupA, hk]
  | cons p rest ih =>
    obtain ⟨k2, w⟩ := p
    by_cases h2 : k2 = a
    · simp [lookupA, h2]
    · simp [lookupA, h2, ih]

theorem recordDigests_mismatch :
    ∀ (hs : List Hasher) (digests : List (String × Digest)),
      (hs.map Hasher.name).Nodup →
      (∃ hsr ∈ hs, ∃ d, lookupA digests hsr.name = some d ∧ d ≠ hsr.digest) →
      ∃ hsr2 ∈ hs, ∃ d2, lookupA digests hsr2.name = some d2 ∧ d2 ≠ hsr2.digest ∧
        (recordDigests digests hs).1 = some (.inconsistentDigest hsr2.name) := by
  intro hs
  induction hs with
  | nil =>
    intro digests _ hex
    obtain ⟨hsr, hmem, _⟩ := hex
    simp at hmem
  | cons h0 rest ih =>
    intro digests hnodup hex
    have hnd : h0.name ∉ rest.map Hasher.name ∧ (rest.map Hasher.name).Nodup := by
      rw [List.map_cons] at hnodup
      exact List.nodup_cons.mp hnodup
    cases hc : lookupA digests h0.name with
    | none =>
      obtain ⟨hsr, hmem, d, hd, hne⟩ := hex
      have hmem2 : hsr ∈ rest := by
        rcases List.mem_cons.mp hmem with he | hm
        · subst he; rw [hc] at hd; exact absurd hd (by simp)
        · exact hm
      have hname : h0.name ≠ hsr.name := fun he =>
        hnd.1 (he ▸ List.mem_map_of_mem Hasher.name hmem2)
      have hd2 : lookupA (digests ++ [(h0.name, h0.digest)]) hsr.name = some d := by
        rw [lookupA_append_one digests h0.name h0.digest hsr.name hname]; exact hd
      obtain ⟨hsr2, hm2, d2, hld2, hne2, heq⟩ :=
        ih (digests ++ [(h0.name, h0.digest)]) hnd.2 ⟨hsr, hmem2, d, hd2, hne⟩
      have hname2 : h0.name ≠ hsr2.name := fun he =>
        hnd.1 (he ▸ List.mem_map_of_mem Hasher.name hm2)
      refine ⟨hsr2, List.mem_cons_of_mem _ hm2, d2, ?_, hne2, ?_⟩
      · rw [← lookupA_append_one digests h0.name h0.digest hsr2.name hname2]; exact hld2
      · simp only [recordDigests, hc]; exact heq
    | some dd =>
      by_cases he : dd = h0.digest
      · obtain ⟨hsr, hmem, d, hd, hne⟩ := hex
        have hmem2 : hsr ∈ rest := by
          rcases List.mem_cons.mp hmem with heq2 | hm
          · subst heq2
            rw [hc] at hd
            have hdd : dd = d := by injection hd
            exact absurd (by rw [← hdd, he]) hne
          · exact hm
        obtain ⟨hsr2, hm2, d2, hld2, hne2, heq⟩ :=
          ih digests hnd.2 ⟨hsr, hmem2, d, hd, hne⟩
        exact ⟨hsr2, List.mem_cons_of_mem _ hm2, d2, hld2, hne2, by
          simp only [recordDigests, hc, if_pos he]; exact heq⟩
      · exact ⟨h0, by simp, dd, hc, he, by simp [recordDigests, hc, if_neg he]⟩

/-- C2: for every algorithm in the union of recorded and requested
algorithms: on a successful call, every such algorithm ends up recorded with
the digest newly computed over the stream, and any previously recorded
digest already equals it; and whenever some previously recorded digest
differs from the recomputed one, the call raises the digest-mismatch error
(`TimestampVerificationError` naming the algorithm — the spec's
InconsistentDigest) for an offending algorithm. -/
theorem add_algorithms_records_and_checks (t : Timestamp) (algorithms order : List String)
    (chunks : List (List Nat)) (hfd : t.data_fd = some chunks)
    (horder : UnionOrder t algorithms order)
    (hknown : ∀ a ∈ order, a ∈ known_algorithms) :
    ((t.add_algorithms algorithms order).1 = none →
      ∀ a ∈ order,
        lookupA ((t.add_algorithms algorithms order).2).digests a
            = some (hashDigest a (streamData chunks)) ∧
        (∀ d, lookupA t.digests a = some d → d = hashDigest a (streamData chunks))) ∧
    ((∃ a ∈ order, ∃ d, lookupA t.digests a = some d ∧ d ≠ hashDigest a (streamData chunks)) →
      ∃ b ∈ order, ∃ d, lookupA t.digests b = some d ∧ d ≠ hashDigest b (streamData chunks) ∧
        (t.add_algorithms algorithms order).1 = some (.inconsistentDigest b)) := by
  have hrw := add_algorithms_eq t algorithms order chunks hfd hknown
  have hnames : ((order.map fun a => (⟨a, streamData chunks⟩ : Hasher)).map Hasher.name)
      = order := by
    rw [List.map_map]
    exact List.map_id order
  constructor
  · intro hnone a ha
    rw [hrw] at hnone
    simp only at hnone
    constructor
    · rw [hrw]
      simp only
      exact recordDigests_none_lookup _ t.digests hnone ⟨a, streamData chunks⟩
        (List.mem_map_of_mem _ ha)
    · intro d hd
      by_contra hne
      obtain ⟨hsr2, _, d2, _, _, heq⟩ :=
        recordDigests_mismatch (order.map fun a => (⟨a, streamData chunks⟩ : Hasher))
          t.digests (by rw [hnames]; exact horder.1)
          ⟨⟨a, streamData chunks⟩, List.mem_map_of_mem _ ha, d, hd, hne⟩
      rw [heq] at hnone
      exact absurd hnone (by simp)
  · intro hex
    obtain ⟨a, ha, d, hd, hne⟩ := hex
    obtain ⟨hsr2, hm2, d2, hld2, hne2, heq⟩ :=
      recordDigests_mismatch (order.map fun a => (⟨a, streamData chunks⟩ : Hasher))
        t.digests (by rw [hnames]; exact horder.1)
        ⟨⟨a, streamData chunks⟩, List.mem_map_of_mem _ ha, d, hd, hne⟩
    obtain ⟨b, hb, hbeq⟩ := List.mem_map.mp hm2
    refine ⟨b, hb, d2, ?_, ?_, ?_⟩
    · rw [show b = hsr2.name from by rw [← hbeq]]; exact hld2
    · rw [show b = hsr2.name from by rw [← hbeq]]
      rw [show hashDigest hsr2.name (streamData chunks) = hsr2.digest from by rw [← hbeq]; rfl]
      exact hne2
    · rw [hrw]
      simp only
      rw [heq, show hsr2.name = b from by rw [← hbeq]]

theorem add_algorithms_records_and_checks_witness :
    lookupA ((tEmpty.add_algorithms ["sha256"] ["sha256"]).2).digests "sha256"
      = some (hashDigest "sha256" (streamData [[3]])) :=
  ((add_algorithms_records_and_checks tEmpty ["sha256"] ["sha256"] [[3]] rfl (by decide)
      (by decide)).1 (by decide) "sha256" (by decide)).1

/-- C5: calling the digesting operation twice in a row with the same
algorithm set and an unchanged data source (the same readable view presented
again) raises no error the second time and leaves the stored digest map
unchanged — re-digesting re-confirms rather than overwrites. -/
theorem add_algorithms_idempotent (t t1 : Timestamp) (algorithms order order2 : List String)
    (chunks : List (List Nat)) (hfd : t.data_fd = some chunks)
    (horder : UnionOrder t algorithms order)
    (hknown : ∀ a ∈ order, a ∈ known_algorithms)
    (h1 : t.add_algorithms algorithms order = (none, t1))
    (horder2 : UnionOrder t1 algorithms order2) :
    ({ t1 with data_fd := some chunks } : Timestamp).add_algorithms algorithms order2
      = (none, { t1 with data_fd := some (streamRest chunks) }) := by
  have hrw := add_algorithms_eq t algorithms order chunks hfd hknown
  rw [hrw] at h1
  have hfst :
      (recordDigests t.digests
        (order.map fun a => (⟨a, streamData chunks⟩ : Hasher))).1 = none := by
    have h2 := congrArg Prod.fst h1
    simpa using h2
  have hsnd := congrArg Prod.snd h1
  simp only at hsnd
  have hsub : ∀ a ∈ order2, a ∈ order := by
    intro a ha
    rcases horder2.2.1 a ha with hk | halg
    · rw [← hsnd] at hk
      simp only at hk
      rcases recordDigests_keys _ t.digests a hk with hk2 | hk2
      · exact horder.2.2.1 a hk2
      · rw [List.map_map] at hk2
        simpa using hk2
    · exact horder.2.2.2 a halg
  have hknown2 : ∀ a ∈ order2, a ∈ known_algorithms := fun a ha => hknown a (hsub a ha)
  have hall : ∀ hsr ∈ (order2.map fun a => (⟨a, streamData chunks⟩ : Hasher)),
      lookupA t1.digests hsr.name = some hsr.digest := by
    intro hsr hm
    obtain ⟨b, hb, hbeq⟩ := List.mem_map.mp hm
    subst hbeq
    rw [← hsnd]
    simp only
    exact recordDigests_none_lookup _ t.digests hfst ⟨b, streamData chunks⟩
      (List.mem_map_of_mem _ (hsub b hb))
  have hrw2 := add_algorithms_eq ({ t1 with data_fd := some chunks }) algorithms order2
    chunks rfl hknown2
  have ht1d : ({ t1 with data_fd := some chunks } : Timestamp).digests = t1.digests := rfl
  rw [ht1d, recordDigests_allmatch _ t1.digests hall] at hrw2
  rw [hrw2]

theorem add_algorithms_idempotent_witness :
    ({ tEmptyRun with data_fd := some [[3]] } : Timestamp).add_algorithms
        ["sha256"] ["sha256"]
      = (none, { tEmptyRun with data_fd := some (streamRest [[3]]) }) :=
  add_algorithms_idempotent tEmpty tEmptyRun ["sha256"] ["sha256"] ["sha256"] [[3]]
    rfl (by decide) (by decide) (by decide) (by decide)

theorem subset_closureAdd (acc : List Digest) (op : Op) : acc ⊆ closureAdd acc op := by
  unfold closureAdd
  split_ifs with h
  · exact List.subset_append_left acc [op.digest]
  · exact fun x hx => hx

theorem subset_closureStep (ops : List Op) : ∀ acc, acc ⊆ closureStep ops acc := by
  unfold closureStep
  induction ops with
  | nil => intro acc x hx; exact hx
  | cons op rest ih =>
    intro acc x hx
    rw [List.foldl_cons]
    exact ih (closureAdd acc op) (subset_closureAdd acc op hx)

theorem subset_closureIter (ops : List Op) : ∀ n acc, acc ⊆ closureIter ops n acc := by
  intro n
  induction n with
  | zero => intro acc x hx; exact hx
  | succ n ih =>
    intro acc x hx
    exact ih (closureStep ops acc) (subset_closureStep ops acc hx)

theorem seeds_subset_children (ops : List Op) (seeds : List Digest) :
    seeds ⊆ Dag.children ops seeds :=
  subset_closureIter ops ops.length seeds

/-- C3: consistency verification succeeds exactly when every signature's
attested digest is in the descendant closure of the source digests over the
proof DAG; any error is the unanchored-signature error naming a signature
whose digest is outside the closure. -/
theorem verify_consistency_closure (t : Timestamp) :
    (t.verify_consistency = none ↔ ∀ s ∈ t.signatures, s.digest ∈ closureDigests t) ∧
    (∀ s, t.verify_consistency = some (.unanchoredSignature s) →
      s ∈ t.signatures ∧ s.digest ∉ closureDigests t) ∧
    ((∃ s ∈ t.signatures, s.digest ∉ closureDigests t) →
      ∃ s ∈ t.signatures, s.digest ∉ closureDigests t ∧
        t.verify_consistency = some (.unanchoredSignature s)) := by
  have hmem : ∀ x : Digest,
      (x ∈ Dag.children t.dag (t.digests.map Prod.snd) ++ t.digests.map Prod.snd) ↔
        x ∈ closureDigests t := by
    intro x
    rw [List.mem_append]
    constructor
    · rintro (h | h)
      · exact h
      · exact seeds_subset_children _ _ h
    · exact Or.inl
  cases hf : t.signatures.find? (fun s => decide (s.digest ∉
      (Dag.children t.dag (t.digests.map Prod.snd) ++ t.digests.map Prod.snd))) with
  | none =>
    have hall := List.find?_eq_none.mp hf
    have hv : t.verify_consistency = none := by
      unfold Timestamp.verify_consistency
      simp only [hf]
    refine ⟨⟨fun _ s hs => ?_, fun _ => hv⟩, fun s hveq => ?_, fun hex => ?_⟩
    · have hns := hall s hs
      simp only [decide_eq_true_eq] at hns
      exact (hmem s.digest).mp (not_not.mp hns)
    · rw [hv] at hveq
      exact absurd hveq (by simp)
    · obtain ⟨s, hs, hnot⟩ := hex
      have hns := hall s hs
      simp only [decide_eq_true_eq] at hns
      exact absurd ((hmem s.digest).mp (not_not.mp hns)) hnot
  | some s0 =>
    have hs0mem : s0 ∈ t.signatures := List.mem_of_find?_eq_some hf
    have hs0p := List.find?_some hf
    simp only [decide_eq_true_eq] at hs0p
    have hs0not : s0.digest ∉ closureDigests t := fun hin => hs0p ((hmem s0.digest).mpr hin)
    have hv : t.verify_consistency = some (.unanchoredSignature s0) := by
      unfold Timestamp.verify_consistency
      simp only [hf]
    refine ⟨⟨fun hveq => ?_, fun hall2 => ?_⟩, fun s hveq => ?_, fun _ => ?_⟩
    · rw [hv] at hveq
      exact absurd hveq (by simp)
    · exact absurd (hall2 s0 hs0mem) hs0not
    · rw [hv] at hveq
      have : s = s0 := by
        have h2 : TsError.unanchoredSignature s0 = TsError.unanchoredSignature s := by
          injection hveq
        injection h2 with h3
        exact h3.symm
      subst this
      exact ⟨hs0mem, hs0not⟩
    · exact ⟨s0, hs0mem, hs0not, hv⟩

theorem verify_consistency_closure_witness :
    tChain.verify_consistency = none :=
  (verify_consistency_closure tChain).1.mpr (by decide)

theorem mkStack_length : ∀ (n : Nat) (l : List Digest), (mkStack n l).length = l.length := by
  intro n l
  induction l generalizing n with
  | nil => rfl
  | cons d ds ih => simp [mkStack, ih]

theorem mkStack_append : ∀ (l : List Digest) (n : Nat) (d : Digest),
    mkStack n (l ++ [d]) = mkStack n l ++ [(d, n + l.length)] := by
  intro l
  induction l with
  | nil => intro n d; simp [mkStack]
  | cons x xs ih =>
    intro n d
    have hn : n + 1 + xs.length = n + (xs.length + 1) := by omega
    rw [List.cons_append]
    simp only [mkStack]
    rw [ih (n + 1) d, List.length_cons, hn]
    simp

theorem lookupA_mkStack : ∀ (l : List Digest) (n : Nat) (d : Digest) (i : Nat),
    lookupA (mkStack n l) d = some i → ∃ j, i = n + j ∧ l.get? j = some d := by
  intro l
  induction l with
  | nil => intro n d i h; simp [mkStack, lookupA] at h
  | cons x xs ih =>
    intro n d i h
    simp only [mkStack, lookupA] at h
    split at h
    · rename_i hx
      have hni : n = i := by injection h
      refine ⟨0, by omega, ?_⟩
      simp [hx]
    · rename_i hx
      obtain ⟨j, hj, hget⟩ := ih (n + 1) d i h
      refine ⟨j + 1, by omega, ?_⟩
      simpa using hget

theorem lookupA_mkStack_get : ∀ (l : List Digest) (d : Digest) (i : Nat),
    lookupA (mkStack 0 l) d = some i → l.get? i = some d := by
  intro l d i h
  obtain ⟨j, hj, hget⟩ := lookupA_mkStack l 0 d i h
  rw [hj]
  simpa using hget

theorem lookupA_mkStack_none : ∀ (l : List Digest) (n : Nat) (d : Digest),
    d ∉ l → lookupA (mkStack n l) d = none := by
  intro l
  induction l with
  | nil => intro n d _; rfl
  | cons x xs ih =>
    intro n d hd
    have hx : x ≠ d := fun he => hd (by simp [he])
    simp only [mkStack, lookupA, if_neg hx]
    exact ih (n + 1) d (fun hin => hd (by simp [hin]))

theorem setA_fresh {α β : Type} [DecidableEq α] :
    ∀ (m : List (α × β)) (a : α) (v : β), lookupA m a = none → setA m a v = m ++ [(a, v)] := by
  intro m
  induction m with
  | nil => intro a v _; rfl
  | cons p rest ih =>
    intro a v h
    obtain ⟨k, w⟩ := p
    by_cases hk : k = a
    · simp [lookupA, hk] at h
    · simp only [lookupA, if_neg hk] at h
      simp only [setA, if_neg hk, List.cons_append, ih a v h]

theorem stackPush_mkStack : ∀ (l : List Digest) (d : Digest), d ∉ l →
    stackPush (mkStack 0 l) d = mkStack 0 (l ++ [d]) := by
  intro l d hd
  unfold stackPush
  rw [setA_fresh _ _ _ (lookupA_mkStack_none l 0 d hd), mkStack_length, mkStack_append]
  simp

theorem foldl_stackPush : ∀ (l pre : List Digest), (pre ++ l).Nodup →
    l.foldl stackPush (mkStack 0 pre) = mkStack 0 (pre ++ l) := by
  intro l
  induction l with
  | nil => intro pre _; simp
  | cons d ds ih =>
    intro pre hnd
    have hdpre : d ∉ pre := by
      rcases List.nodup_append.mp hnd with ⟨_, _, hdisj⟩
      intro hin
      exact hdisj hin (by simp)
    rw [List.foldl_cons, stackPush_mkStack pre d hdpre]
    have hnd2 : ((pre ++ [d]) ++ ds).Nodup := by
      rw [List.append_assoc]
      simpa using hnd
    rw [ih (pre ++ [d]) hnd2]
    congr 1
    rw [List.append_assoc]
    rfl

theorem serStack0_eq (t : Timestamp) (compress : Bool)
    (h : compress = true → (sortDigests (t.digests.map Prod.snd)).Nodup) :
    serStack0 t compress = stkOf compress (sortDigests (t.digests.map Prod.snd)) := by
  cases compress with
  | false => rfl
  | true =>
    unfold serStack0 stkOf
    simp only [if_pos rfl]
    have := foldl_stackPush (sortDigests (t.digests.map Prod.snd)) [] (by simpa using h rfl)
    simpa using this

theorem resolveInput_primInputOf (compress : Bool) (l : List Digest) (d : Digest)
    (hv : ValidBytes d) :
    resolveInput l (primInputOf (stkOf compress l) d) = .ok d := by
  cases compress with
  | false =>
    have hstk : stkOf false l = [] := rfl
    rw [hstk]
    simp [primInputOf, lookupA, resolveInput, unhexlify_hexlify d hv]
  | true =>
    have hstk : stkOf true l = mkStack 0 l := rfl
    rw [hstk]
    cases hc : lookupA (mkStack 0 l) d with
    | some i =>
      have hpi : primInputOf (mkStack 0 l) d = .ref i := by
        unfold primInputOf
        rw [hc]
      rw [hpi]
      have hg : l[i]? = some d := by
        have := lookupA_mkStack_get l d i hc
        simpa using this
      simp [resolveInput, hg]
    | none =>
      have hpi : primInputOf (mkStack 0 l) d = .raw (hexlify d) := by
        unfold primInputOf
        rw [hc]
      rw [hpi]
      simp [resolveInput, unhexlify_hexlify d hv]

theorem resolveInputs_map (compress : Bool) (l : List Digest) :
    ∀ (ds : List Digest), (∀ d ∈ ds, ValidBytes d) →
      resolveInputs l (ds.map (primInputOf (stkOf compress l))) = .ok ds := by
  intro ds
  induction ds with
  | nil => intro _; rfl
  | cons d rest ih =>
    intro hv
    simp only [List.map_cons, resolveInputs,
      resolveInput_primInputOf compress l d (hv d (by simp)),
      ih (fun x hx => hv x (by simp [hx]))]

theorem op_roundtrip (compress inc : Bool) (l : List Digest) (op : Op)
    (hv : ∀ i ∈ op.inputs, ValidBytes i) :
    Op.from_primitives (op.to_primitives (stkOf compress l) inc) l = .ok op := by
  unfold Op.from_primitives Op.to_primitives
  simp only [resolveInputs_map compress l op.inputs hv]

theorem sig_roundtrip (compress : Bool) (l : List Digest) (s : Sig) (hv : ValidBytes s.digest) :
    Sig.from_primitives (s.to_primitives (stkOf compress l)) l = .ok s := by
  unfold Sig.from_primitives Sig.to_primitives
  simp only [resolveInput_primInputOf compress l s.digest hv]

theorem sigs_roundtrip (compress : Bool) (l : List Digest) :
    ∀ (sigs : List Sig), (∀ s ∈ sigs, ValidBytes s.digest) →
      sigsFromPrims l (sigs.map fun s => s.to_primitives (stkOf compress l)) = .ok sigs := by
  intro sigs
  induction sigs with
  | nil => intro _; rfl
  | cons s rest ih =>
    intro hv
    simp only [List.map_cons, sigsFromPrims,
      sig_roundtrip compress l s (hv s (by simp)),
      ih (fun x hx => hv x (by simp [hx]))]

theorem opsToPrims_cons (compress inc : Bool) (op : Op) (rest : List Op)
    (stack : List (Digest × Nat)) :
    opsToPrims compress inc (op :: rest) stack =
      ((op.to_primitives stack inc) ::
        (opsToPrims compress inc rest
          (if compress then stackPush stack op.digest else stack)).1,
       (opsToPrims compress inc rest
          (if compress then stackPush stack op.digest else stack)).2) := rfl

theorem ops_roundtrip (compress inc : Bool) :
    ∀ (ops : List Op) (l : List Digest),
      (∀ op ∈ ops, ∀ i ∈ op.inputs, ValidBytes i) →
      (compress = true → (l ++ ops.map Op.digest).Nodup) →
      (opsToPrims compress inc ops (stkOf compress l)).2
          = stkOf compress (l ++ ops.map Op.digest) ∧
      opsFromPrims (opsToPrims compress inc ops (stkOf compress l)).1 l
          = .ok (ops, l ++ ops.map Op.digest) := by
  intro ops
  induction ops with
  | nil =>
    intro l _ _
    constructor
    · simp [opsToPrims]
    · simp [opsToPrims, opsFromPrims]
  | cons op rest ih =>
    intro l hv hnd
    have hstack2 : (if compress then stackPush (stkOf compress l) op.digest
        else stkOf compress l) = stkOf compress (l ++ [op.digest]) := by
      cases compress with
      | false => rfl
      | true =>
        simp only [if_pos rfl, stkOf]
        have hdl : op.digest ∉ l := by
          have hnd2 := hnd rfl
          rcases List.nodup_append.mp hnd2 with ⟨_, _, hdisj⟩
          intro hin
          exact hdisj hin (by simp)
        exact stackPush_mkStack l op.digest hdl
    have hnd2 : compress = true → ((l ++ [op.digest]) ++ rest.map Op.digest).Nodup := by
      intro hc
      rw [List.append_assoc]
      simpa using hnd hc
    have ihh := ih (l ++ [op.digest]) (fun o ho i hi => hv o (by simp [ho]) i hi) hnd2
    rw [opsToPrims_cons, hstack2]
    constructor
    · simp only [ihh.1]
      congr 1
      simp
    · simp only [opsFromPrims,
        op_roundtrip compress inc l op (hv op (by simp)), ihh.2]
      simp

theorem decodeDigests_map :
    ∀ (dl : List (String × Digest)), (∀ p ∈ dl, ValidBytes p.2) →
      decodeDigests (dl.map fun p => (p.1, hexlify p.2)) = .ok dl := by
  intro dl
  induction dl with
  | nil => intro _; rfl
  | cons p rest ih =>
    intro hv
    obtain ⟨a, d⟩ := p
    simp only [List.map_cons, decodeDigests,
      unhexlify_hexlify d (hv (a, d) (by simp)),
      ih (fun x hx => hv x (by simp [hx]))]

theorem foldl_setInsert : ∀ (l acc : List Sig), (acc ++ l).Nodup →
    l.foldl setInsert acc = acc ++ l := by
  intro l
  induction l with
  | nil => intro acc _; simp
  | cons s rest ih =>
    intro acc hnd
    have hs : s ∉ acc := by
      rcases List.nodup_append.mp hnd with ⟨_, _, hdisj⟩
      intro hin
      exact hdisj hin (by simp)
    rw [List.foldl_cons]
    have hset : setInsert acc s = acc ++ [s] := by
      unfold setInsert
      rw [if_neg hs]
    have hnd2 : ((acc ++ [s]) ++ rest).Nodup := by
      rw [List.append_assoc]
      simpa using hnd
    rw [hset, ih (acc ++ [s]) hnd2, List.append_assoc]
    rfl

theorem setOfList_nodup (l : List Sig) (h : l.Nodup) : setOfList l = l := by
  unfold setOfList
  have := foldl_setInsert l [] (by simpa using h)
  simpa using this

/-- C1 (amended): deserializing the serialization of a validly constructed
timestamp (byte-valid digests, signature set without repetition) recovers
the same source-digest map, the same operation set and the same signature
set, for serialization with or without operation digests; with compression
disabled this is unconditional, and with compression enabled it holds
provided the digests pushed on the compression stack (the sorted source
digests followed by the canonical-order operation outputs) are pairwise
distinct. -/
theorem round_trip (t : Timestamp) (inc compress : Bool)
    (hd : ∀ p ∈ t.digests, ValidBytes p.2)
    (hi : ∀ op ∈ t.dag, ∀ i ∈ op.inputs, ValidBytes i)
    (hs : ∀ s ∈ t.signatures, ValidBytes s.digest)
    (hnodup : t.signatures.Nodup)
    (hstack : compress = true → (stackDigests t).Nodup) :
    ∃ t2, Timestamp.from_primitives (t.to_primitives inc compress) none = .ok t2 ∧
      t2.digests = t.digests ∧ t2.dag.Perm t.dag ∧ t2.signatures = t.signatures := by
  have hvops : ∀ op ∈ op_sorter t.dag, ∀ i ∈ op.inputs, ValidBytes i := by
    intro op hop
    exact hi op ((List.perm_insertionSort opLe t.dag).mem_iff.mp hop)
  have hndstack : compress = true →
      (sortDigests (t.digests.map Prod.snd) ++ (op_sorter t.dag).map Op.digest).Nodup := by
    intro hc
    have := hstack hc
    unfold stackDigests at this
    exact this
  have hser : serStack0 t compress
      = stkOf compress (sortDigests (t.digests.map Prod.snd)) :=
    serStack0_eq t compress (fun hc => (hndstack hc).of_append_left)
  have hops := ops_roundtrip compress inc (op_sorter t.dag)
    (sortDigests (t.digests.map Prod.snd)) hvops hndstack
  have h1 : decodeDigests (t.to_primitives inc compress).digests = .ok t.digests :=
    decodeDigests_map t.digests hd
  have h2 : opsFromPrims (t.to_primitives inc compress).ops
      (sortDigests (t.digests.map Prod.snd))
      = .ok (op_sorter t.dag,
          sortDigests (t.digests.map Prod.snd) ++ (op_sorter t.dag).map Op.digest) := by
    have hopsfield : (t.to_primitives inc compress).ops
        = (opsToPrims compress inc (op_sorter t.dag)
            (stkOf compress (sortDigests (t.digests.map Prod.snd)))).1 := by
      show (opsToPrims compress inc (op_sorter t.dag) (serStack0 t compress)).1 = _
      rw [hser]
    rw [hopsfield]
    exact hops.2
  have h3 : sigsFromPrims
      (sortDigests (t.digests.map Prod.snd) ++ (op_sorter t.dag).map Op.digest)
      (t.to_primitives inc compress).signatures = .ok t.signatures := by
    have hsigfield : (t.to_primitives inc compress).signatures
        = t.signatures.map fun s => s.to_primitives
            (stkOf compress (sortDigests (t.digests.map Prod.snd)
              ++ (op_sorter t.dag).map Op.digest)) := by
      show (t.signatures.map fun s => s.to_primitives
          (opsToPrims compress inc (op_sorter t.dag) (serStack0 t compress)).2) = _
      rw [hser, hops.1]
    rw [hsigfield]
    exact sigs_roundtrip compress _ t.signatures hs
  refine ⟨Timestamp.make none t.digests (op_sorter t.dag) t.signatures none, ?_, rfl, ?_, ?_⟩
  · unfold Timestamp.from_primitives
    simp only [h1, h2, h3]
  · show (Timestamp.make none t.digests (op_sorter t.dag) t.signatures none).dag.Perm t.dag
    exact List.perm_insertionSort opLe t.dag
  · show setOfList t.signatures = t.signatures
    exact setOfList_nodup t.signatures hnodup

theorem round_trip_witness :
    ∃ t2, Timestamp.from_primitives (tRound.to_primitives true true) none = .ok t2 ∧
      t2.digests = tRound.digests ∧ t2.dag.Perm tRound.dag ∧
      t2.signatures = tRound.signatures :=
  round_trip tRound true true (by decide) (by decide) (by decide) (by decide) (by decide)

/-- C1 counterexample: for `tCollide` — validly constructed, but with equal
digest values under two algorithms — compressed serialization followed by
deserialization changes the signature set: the attested digest `[1]` comes
back as `[0]`. -/
theorem round_trip_counterexample :
    (Timestamp.from_primitives (tCollide.to_primitives false true) none).map
        (fun t2 => t2.signatures)
      = .ok [{ digest := [0], notary := "cal" }] ∧
    tCollide.signatures = [{ digest := [1], notary := "cal" }] ∧
    ({ digest := ([0] : List Nat), notary := "cal" } : Sig)
      ≠ { digest := [1], notary := "cal" } := by decide

theorem encodeInputs_inj : ∀ (l1 l2 : List Digest), l1.length = l2.length →
    encodeInputs l1 = encodeInputs l2 → l1 = l2 := by
  intro l1
  induction l1 with
  | nil =>
    intro l2 hlen _
    cases l2 with
    | nil => rfl
    | cons b bs => simp at hlen
  | cons a as ih =>
    intro l2 hlen henc
    cases l2 with
    | nil => simp at hlen
    | cons b bs =>
      simp only [encodeInputs, List.foldr, encodeInput, List.cons_append] at henc
      injection henc with hlen2 htail
      obtain ⟨hab, hrest⟩ := List.append_inj htail hlen2
      have hlens : as.length = bs.length := by simpa using hlen
      rw [hab, ih bs hlens hrest]

theorem sortKey_inj : ∀ (o1 o2 : Op), o1.sortKey = o2.sortKey → o1 = o2 := by
  intro o1 o2 h
  obtain ⟨k1, i1⟩ := o1
  obtain ⟨k2, i2⟩ := o2
  simp only [Op.sortKey] at h
  injection h with hk h2
  injection h2 with hlen henc
  have hi : i1 = i2 := encodeInputs_inj i1 i2 hlen henc
  rw [hk, hi]

instance : IsTotal Op opLe := ⟨fun a b => dle_total a.sortKey b.sortKey⟩
instance : IsTrans Op opLe := ⟨fun a b c => dle_trans a.sortKey b.sortKey c.sortKey⟩
instance : IsAntisymm Op opLe :=
  ⟨fun a b hab hba => sortKey_inj a b (dle_antisymm a.sortKey b.sortKey hab hba)⟩

/-- C4 (amended): serializing the same logical timestamp — equal digest-map
entries, equal operation multisets and equal signature multisets, possibly
built in different insertion orders — yields the identical operation
sequence with identical stack references (the sorted digest stack and the
canonical operation order are enforced by `to_primitives`), while the
digests and signatures fields agree exactly up to the reordering induced by
the digest map's insertion order and the signature set's iteration order. -/
theorem to_primitives_deterministic (t1 t2 : Timestamp) (inc compress : Bool)
    (hdig : t1.digests.Perm t2.digests)
    (hdag : t1.dag.Perm t2.dag)
    (hsig : t1.signatures.Perm t2.signatures) :
    (t1.to_primitives inc compress).ops = (t2.to_primitives inc compress).ops ∧
    (t1.to_primitives inc compress).digests.Perm (t2.to_primitives inc compress).digests ∧
    (t1.to_primitives inc compress).signatures.Perm
      (t2.to_primitives inc compress).signatures := by
  have hvals : (t1.digests.map Prod.snd).Perm (t2.digests.map Prod.snd) :=
    hdig.map Prod.snd
  have hsorted : sortDigests (t1.digests.map Prod.snd)
      = sortDigests (t2.digests.map Prod.snd) := by
    have hp : (sortDigests (t1.digests.map Prod.snd)).Perm
        (sortDigests (t2.digests.map Prod.snd)) :=
      ((List.perm_insertionSort dleR _).trans hvals).trans
        (List.perm_insertionSort dleR _).symm
    have hs1 : List.Sorted dleR (sortDigests (t1.digests.map Prod.snd)) :=
      List.sorted_insertionSort dleR _
    have hs2 : List.Sorted dleR (sortDigests (t2.digests.map Prod.snd)) :=
      List.sorted_insertionSort dleR _
    exact List.eq_of_perm_of_sorted hp hs1 hs2
  have hopseq : op_sorter t1.dag = op_sorter t2.dag := by
    have hp : (op_sorter t1.dag).Perm (op_sorter t2.dag) :=
      ((List.perm_insertionSort opLe _).trans hdag).trans
        (List.perm_insertionSort opLe _).symm
    have hs1 : List.Sorted opLe (op_sorter t1.dag) :=
      List.sorted_insertionSort opLe _
    have hs2 : List.Sorted opLe (op_sorter t2.dag) :=
      List.sorted_insertionSort opLe _
    exact List.eq_of_perm_of_sorted hp hs1 hs2
  have hser : serStack0 t1 compress = serStack0 t2 compress := by
    unfold serStack0
    rw [hsorted]
  refine ⟨?_, ?_, ?_⟩
  · show (opsToPrims compress inc (op_sorter t1.dag) (serStack0 t1 compress)).1
      = (opsToPrims compress inc (op_sorter t2.dag) (serStack0 t2 compress)).1
    rw [hopseq, hser]
  · exact hdig.map _
  · show (t1.signatures.map fun s => s.to_primitives
        (opsToPrims compress inc (op_sorter t1.dag) (serStack0 t1 compress)).2).Perm
      (t2.signatures.map fun s => s.to_primitives
        (opsToPrims compress inc (op_sorter t2.dag) (serStack0 t2 compress)).2)
    rw [hopseq, hser]
    exact hsig.map _

theorem to_primitives_deterministic_witness :
    (tOrder1.to_primitives false true).ops = (tOrder2.to_primitives false true).ops ∧
    (tOrder1.to_primitives false true).digests.Perm
      (tOrder2.to_primitives false true).digests ∧
    (tOrder1.to_primitives false true).signatures.Perm
      (tOrder2.to_primitives false true).signatures :=
  to_primitives_deterministic tOrder1 tOrder2 false true (by decide) (by decide) (by decide)

/-- C4 counterexample: `tOrder1` and `tOrder2` are the same logical
timestamp (equal digest map, DAG and signatures) built in different
insertion orders, yet their serializations differ — the digests field lists
entries in map insertion order, so the output is not identical. -/
theorem to_primitives_order_counterexample :
    tOrder1.digests.Perm tOrder2.digests ∧ tOrder1.dag = tOrder2.dag ∧
    tOrder1.signatures = tOrder2.signatures ∧
    tOrder1.to_primitives false true ≠ tOrder2.to_primitives false true := by decide

theorem resolveInput_error (stack : List Digest) (pi : PrimInput) (e : TsError)
    (h : resolveInput stack pi = .error e) : e = .malformedProof := by
  cases pi with
  | ref i =>
    simp only [resolveInput] at h
    rw [List.get?_eq_getElem?] at h
    cases hg : stack[i]? with
    | some d =>
      simp [hg] at h
    | none =>
      simp only [hg, Except.error.injEq] at h
      exact h.symm
  | raw hx =>
    simp only [resolveInput] at h
    cases hu : unhexlify hx with
    | some d =>
      simp [hu] at h
    | none =>
      simp only [hu, Except.error.injEq] at h
      exact h.symm

theorem resolveInputs_error : ∀ (l : List PrimInput) (stack : List Digest) (e : TsError),
    resolveInputs stack l = .error e → e = .malformedProof := by
  intro l
  induction l with
  | nil =>
    intro stack e h
    exact absurd h (by simp [resolveInputs])
  | cons i rest ih =>
    intro stack e h
    cases hr : resolveInput stack i with
    | error e2 =>
      simp only [resolveInputs, hr, Except.error.injEq] at h
      rw [← h]
      exact resolveInput_error stack i e2 hr
    | ok d =>
      cases hrs : resolveInputs stack rest with
      | error e3 =>
        simp only [resolveInputs, hr, hrs, Except.error.injEq] at h
        rw [← h]
        exact ih stack e3 hrs
      | ok ds =>
        simp [resolveInputs, hr, hrs] at h

theorem opFromPrims_error (p : PrimOp) (stack : List Digest) (e : TsError)
    (h : Op.from_primitives p stack = .error e) : e = .malformedProof := by
  unfold Op.from_primitives at h
  cases hr : resolveInputs stack p.inputs with
  | error e2 =>
    simp only [hr, Except.error.injEq] at h
    rw [← h]
    exact resolveInputs_error p.inputs stack e2 hr
  | ok inputs =>
    simp [hr] at h

theorem sigFromPrims_error (p : PrimSig) (stack : List Digest) (e : TsError)
    (h : Sig.from_primitives p stack = .error e) : e = .malformedProof := by
  unfold Sig.from_primitives at h
  cases hr : resolveInput stack p.digest with
  | error e2 =>
    simp only [hr, Except.error.injEq] at h
    rw [← h]
    exact resolveInput_error stack p.digest e2 hr
  | ok d =>
    simp [hr] at h

theorem opsFromPrims_error : ∀ (l : List PrimOp) (stack : List Digest) (e : TsError),
    opsFromPrims l stack = .error e → e = .malformedProof := by
  intro l
  induction l with
  | nil =>
    intro stack e h
    exact absurd h (by simp [opsFromPrims])
  | cons po rest ih =>
    intro stack e h
    cases hr : Op.from_primitives po stack with
    | error e2 =>
      simp only [opsFromPrims, hr, Except.error.injEq] at h
      rw [← h]
      exact opFromPrims_error po stack e2 hr
    | ok op =>
      cases hrs : opsFromPrims rest (stack ++ [op.digest]) with
      | error e3 =>
        simp only [opsFromPrims, hr, hrs, Except.error.injEq] at h
        rw [← h]
        exact ih (stack ++ [op.digest]) e3 hrs
      | ok pr =>
        simp [opsFromPrims, hr, hrs] at h

theorem sigsFromPrims_error : ∀ (l : List PrimSig) (stack : List Digest) (e : TsError),
    sigsFromPrims stack l = .error e → e = .malformedProof := by
  intro l
  induction l with
  | nil =>
    intro stack e h
    exact absurd h (by simp [sigsFromPrims])
  | cons ps rest ih =>
    intro stack e h
    cases hr : Sig.from_primitives ps stack with
    | error e2 =>
      simp only [sigsFromPrims, hr, Except.error.injEq] at h
      rw [← h]
      exact sigFromPrims_error ps stack e2 hr
    | ok s =>
      cases hrs : sigsFromPrims stack rest with
      | error e3 =>
        simp only [sigsFromPrims, hr, hrs, Except.error.injEq] at h
        rw [← h]
        exact ih stack e3 hrs
      | ok ss =>
        simp [sigsFromPrims, hr, hrs] at h

theorem decodeDigests_error : ∀ (l : List (String × List Char)) (e : TsError),
    decodeDigests l = .error e → e = .malformedProof := by
  intro l
  induction l with
  | nil =>
    intro e h
    exact absurd h (by simp [decodeDigests])
  | cons p rest ih =>
    intro e h
    obtain ⟨a, hx⟩ := p
    cases hu : unhexlify hx with
    | some d =>
      cases hrs : decodeDigests rest with
      | error e3 =>
        simp only [decodeDigests, hu, hrs, Except.error.injEq] at h
        rw [← h]
        exact ih e3 hrs
      | ok r =>
        simp [decodeDigests, hu, hrs] at h
    | none =>
      simp only [decodeDigests, hu, Except.error.injEq] at h
      exact h.symm

theorem from_primitives_error (p : Primitives) (fd : Option (List (List Nat))) (e : TsError)
    (h : Timestamp.from_primitives p fd = .error e) : e = .malformedProof := by
  unfold Timestamp.from_primitives at h
  cases h1 : decodeDigests p.digests with
  | error e1 =>
    simp only [h1, Except.error.injEq] at h
    rw [← h]
    exact decodeDigests_error p.digests e1 h1
  | ok dl =>
    cases h2 : opsFromPrims p.ops (sortDigests (dl.map Prod.snd)) with
    | error e2 =>
      simp only [h1, h2, Except.error.injEq] at h
      rw [← h]
      exact opsFromPrims_error p.ops _ e2 h2
    | ok pr =>
      cases h3 : sigsFromPrims pr.2 p.signatures with
      | error e3 =>
        simp only [h1, h2, h3, Except.error.injEq] at h
        rw [← h]
        exact sigsFromPrims_error p.signatures pr.2 e3 h3
      | ok sigs =>
        simp [h1, h2, h3] at h

/-- C7: deserialization either succeeds or fails with the malformed-proof
error — every structural violation (an out-of-range or forward stack
reference, or a source digest whose hex fails to decode) is reported as
MalformedProof and is fatal to that deserialization; in particular an
operation referencing stack index 5 when only 3 entries exist, a forward
stack reference, and an undecodable hex digest each fail so. -/
theorem from_primitives_malformed_rejection :
    (∀ (p : Primitives) (fd : Option (List (List Nat))),
      (∃ t2, Timestamp.from_primitives p fd = .ok t2) ∨
        Timestamp.from_primitives p fd = .error .malformedProof) ∧
    Timestamp.from_primitives pBadIndex none = .error .malformedProof ∧
    Timestamp.from_primitives pBadHex none = .error .malformedProof ∧
    Timestamp.from_primitives pFwdRef none = .error .malformedProof := by
  refine ⟨?_, by decide, by decide, by decide⟩
  intro p fd
  cases hr : Timestamp.from_primitives p fd with
  | ok t2 => exact Or.inl ⟨t2, rfl⟩
  | error e =>
    right
    rw [from_primitives_error p fd e hr]
